import Mathlib

/-!
Shallow embedding of the Chan-theory analysis pipeline of
`src/home/stock/stock_analysis.py` (class `ChanlunAnalyzer`).

Prices are modelled as rationals, bar indices as naturals and
timestamps as integers.  Python dict records become structures with the
same field names.  Stateful methods of the analyzer object are split
into a pure core (named after the python method) plus a state-passing
wrapper (suffix `Step`) acting on `AState`, the record of the analyzer's
accumulator fields.
-/

/-- Direction of a pen or segment: python strings 'up' / 'down'. -/
inductive Dir
  | up
  | down
deriving DecidableEq, Repr, Inhabited

/-- Fractal kind: python strings 'top' / 'bottom'. -/
inductive FKind
  | top
  | bottom
deriving DecidableEq, Repr, Inhabited

/-- Central kind: python strings 'up' / 'down' / 'neutral'. -/
inductive CKind
  | up
  | down
  | neutral
deriving DecidableEq, Repr, Inhabited

/-- A fractal record as stored in `self.top_fractals` / `self.bottom_fractals`:
the dict `{'index', 'datetime', 'price'}`. -/
structure Fractal where
  index : ℕ
  datetime : ℤ
  price : ℚ
deriving DecidableEq, Repr, Inhabited

/-- A tagged fractal as used in `filter_fractals`: the tuple
`(index, datetime, price, ftype)`. -/
structure TFractal where
  index : ℕ
  datetime : ℤ
  price : ℚ
  kind : FKind
deriving DecidableEq, Repr, Inhabited

/-- A pen dict as built in `divide_pens`. -/
structure Pen where
  start_index : ℕ
  start_datetime : ℤ
  start_price : ℚ
  start_type : FKind
  end_index : ℕ
  end_datetime : ℤ
  end_price : ℚ
  end_type : FKind
  direction : Dir
  length : ℕ
  price_change : ℚ
  price_change_percent : ℚ
deriving DecidableEq, Repr, Inhabited

/-- A segment dict as built in `divide_segments`. -/
structure Segment where
  start_index : ℕ
  start_datetime : ℤ
  start_price : ℚ
  end_index : ℕ
  end_datetime : ℤ
  end_price : ℚ
  direction : Dir
  pens : List Pen
deriving DecidableEq, Repr, Inhabited

/-- A central dict as built in `identify_centrals`.  The python field
`'type'` is called `ctype` and `'range'` is called `crange` here. -/
structure Central where
  start_index : ℕ
  start_datetime : ℤ
  end_index : ℕ
  end_datetime : ℤ
  high : ℚ
  low : ℚ
  mid : ℚ
  ctype : CKind
  pens : List Pen
  crange : ℚ
deriving DecidableEq, Repr, Inhabited

/-- The bar series: the columns of the input DataFrame that the analyzer
reads (`df.index`, `df['high']`, `df['low']`). -/
structure Bars where
  dts : List ℤ
  highs : List ℚ
  lows : List ℚ
deriving DecidableEq, Repr, Inhabited

/-- The accumulator fields set in `ChanlunAnalyzer.__init__`. -/
structure AState where
  top_fractals : List Fractal
  bottom_fractals : List Fractal
  pens : List Pen
  segments : List Segment
  centrals : List Central
deriving DecidableEq, Repr, Inhabited

/-- The fresh analyzer state built by `ChanlunAnalyzer.__init__`. -/
def initState : AState := ⟨[], [], [], [], []⟩

/-! ### identify_fractals -/

/-- Python slice `xs[a:b]` on a list. -/
def pySlice (xs : List ℚ) (a b : ℕ) : List ℚ := (xs.drop a).take (b - a)

/-- Top-fractal test at index `i`: `(highs[i-k:i] < highs[i]).all() and
(highs[i+1:i+k+1] < highs[i]).all()`. -/
def isTopAt (highs : List ℚ) (k i : ℕ) : Bool :=
  (pySlice highs (i - k) i).all (fun x => x < highs.getD i 0) &&
  (pySlice highs (i + 1) (i + k + 1)).all (fun x => x < highs.getD i 0)

/-- Bottom-fractal test at index `i`: `(lows[i-k:i] > lows[i]).all() and
(lows[i+1:i+k+1] > lows[i]).all()`. -/
def isBottomAt (lows : List ℚ) (k i : ℕ) : Bool :=
  (pySlice lows (i - k) i).all (fun x => x > lows.getD i 0) &&
  (pySlice lows (i + 1) (i + k + 1)).all (fun x => x > lows.getD i 0)

/-- Indices scanned by the fractal loop: `range(bar_count, len(df) - bar_count)`. -/
def fractalRange (n k : ℕ) : List ℕ := List.range' k (n - k - k)

/-- The `self.top_fractals` list built by `identify_fractals`. -/
def identify_tops (df : Bars) (k : ℕ) : List Fractal :=
  (fractalRange df.highs.length k).filterMap fun i =>
    if isTopAt df.highs k i then
      some ⟨i, df.dts.getD i 0, df.highs.getD i 0⟩
    else none

/-- The `self.bottom_fractals` list built by `identify_fractals`. -/
def identify_bottoms (df : Bars) (k : ℕ) : List Fractal :=
  (fractalRange df.highs.length k).filterMap fun i =>
    if isBottomAt df.lows k i then
      some ⟨i, df.dts.getD i 0, df.lows.getD i 0⟩
    else none

/-- State effect of `identify_fractals`: the two fractal accumulators are
reset and refilled (the returned marked DataFrame is not modelled). -/
def identifyStep (s : AState) (df : Bars) (k : ℕ) : AState :=
  { s with top_fractals := identify_tops df k,
           bottom_fractals := identify_bottoms df k }

/-! ### filter_fractals -/

/-- The merged, index-sorted candidate list `all_fractals` (tops are
extended first, then bottoms, then a stable sort by `x[0]`). -/
def all_fractals (tops bottoms : List Fractal) : List TFractal :=
  List.mergeSort
    (tops.map (fun f => ⟨f.index, f.datetime, f.price, FKind.top⟩) ++
     bottoms.map (fun f => ⟨f.index, f.datetime, f.price, FKind.bottom⟩))
    (fun a b => decide (a.index ≤ b.index))

/-- The filtering loop of `filter_fractals`.  `acc` is the
`filtered_fractals` list in reverse (head = python `filtered_fractals[-1]`)
and `last` is `last_type`.  A same-kind candidate replaces the last kept
fractal when it is more extreme.  The case of a same-kind candidate with
an empty accumulator cannot arise (python would fault there) and is a
no-op here. -/
def filter_loop : List TFractal → Option FKind → List TFractal → List TFractal
  | acc, _, [] => acc.reverse
  | acc, none, f :: rest => filter_loop (f :: acc) (some f.kind) rest
  | acc, some lt, f :: rest =>
    if f.kind = lt then
      match acc with
      | [] => filter_loop acc (some lt) rest
      | prev :: tl =>
        match f.kind with
        | FKind.top =>
          if f.price > prev.price then filter_loop (f :: tl) (some lt) rest
          else filter_loop acc (some lt) rest
        | FKind.bottom =>
          if f.price < prev.price then filter_loop (f :: tl) (some lt) rest
          else filter_loop acc (some lt) rest
    else filter_loop (f :: acc) (some f.kind) rest

/-- Pure core of `filter_fractals`: the returned `filtered_fractals`. -/
def filter_fractals (tops bottoms : List Fractal) : List TFractal :=
  filter_loop [] none (all_fractals tops bottoms)

/-- Drop the kind tag of a tagged fractal. -/
def untag (f : TFractal) : Fractal := ⟨f.index, f.datetime, f.price⟩

/-- State effect of `filter_fractals`: the fractal accumulators are
rebuilt from the filtered list, and the filtered list is returned. -/
def filterStep (s : AState) : AState × List TFractal :=
  let filtered := filter_fractals s.top_fractals s.bottom_fractals
  ({ s with
      top_fractals := (filtered.filter (fun f => f.kind = FKind.top)).map untag,
      bottom_fractals := (filtered.filter (fun f => f.kind = FKind.bottom)).map untag },
   filtered)

/-! ### divide_pens -/

/-- The pen dict built in `divide_pens` from the running start fractal and
the current fractal. -/
def mkPen (start cur : TFractal) (change pct : ℚ) : Pen :=
  { start_index := start.index, start_datetime := start.datetime,
    start_price := start.price, start_type := start.kind,
    end_index := cur.index, end_datetime := cur.datetime,
    end_price := cur.price, end_type := cur.kind,
    direction := if cur.price > start.price then Dir.up else Dir.down,
    length := Int.natAbs ((cur.index : ℤ) - (start.index : ℤ)),
    price_change := change,
    price_change_percent := pct }

/-- The scanning loop of `divide_pens` over `filtered_fractals[1:]`. -/
def divide_pens_loop (thr : ℚ) : TFractal → List TFractal → List Pen
  | _, [] => []
  | start, cur :: rest =>
    let change := |cur.price - start.price|
    let pct := change / start.price
    if pct ≥ thr then mkPen start cur change pct :: divide_pens_loop thr cur rest
    else divide_pens_loop thr start rest

/-- Pure core of `divide_pens` (the DataFrame argument of the python
method is unused by its body and omitted). -/
def divide_pens (filtered : List TFractal) (thr : ℚ) : List Pen :=
  if filtered.length < 2 then []
  else
    match filtered with
    | [] => []
    | f0 :: rest => divide_pens_loop thr f0 rest

/-- State effect of `divide_pens`: on the short-input path the method
returns `[]` before touching `self.pens`; otherwise `self.pens` is reset
and refilled. -/
def dividePensStep (s : AState) (filtered : List TFractal) (thr : ℚ) :
    AState × List Pen :=
  if filtered.length < 2 then (s, [])
  else
    let ps := divide_pens filtered thr
    ({ s with pens := ps }, ps)

/-! ### validate_pens -/

/-- Whether the replacement endpoint check of the alternation repair
passes: a kept up pen is replaced only if the newcomer ends higher, a
kept down pen only if the newcomer ends lower. -/
def moreExtreme (cur last : Pen) : Bool :=
  match cur.direction with
  | Dir.up => cur.end_price > last.end_price
  | Dir.down => cur.end_price < last.end_price

/-- Alternation repair loop of `validate_pens` (building `valid_pens`).
`acc` is the list so far in reverse (head = python `valid_pens[-1]`). -/
def repair_loop : List Pen → List Pen → List Pen
  | acc, [] => acc.reverse
  | [], cur :: rest => repair_loop [cur] rest
  | last :: tl, cur :: rest =>
    if cur.direction = last.direction then
      if cur.price_change_percent > last.price_change_percent then
        if moreExtreme cur last then repair_loop (cur :: tl) rest
        else repair_loop (last :: tl) rest
      else repair_loop (last :: tl) rest
    else repair_loop (cur :: last :: tl) rest

/-- Python `min([prev, curr, next], key=lambda x: x['price_change_percent'])`:
the first element with the minimal key. -/
def minByPct (a b c : Pen) : Pen :=
  let m := if b.price_change_percent < a.price_change_percent then b else a
  if c.price_change_percent < m.price_change_percent then c else m

/-- One scan of the triple fix-up: find the first interior triple that is
not of the shape `prev.direction == next.direction != curr.direction`,
remove the pen with the smallest price change among the three (decided by
dict equality against `prev` then `curr`, as in the python pops) and
return the shortened list; `none` when every triple is well formed. -/
def removeFirstViolation : List Pen → Option (List Pen)
  | p :: q :: r :: rest =>
    if p.direction = r.direction ∧ p.direction ≠ q.direction then
      match removeFirstViolation (q :: r :: rest) with
      | none => none
      | some l => some (p :: l)
    else
      let m := minByPct p q r
      if m = p then some (q :: r :: rest)
      else if m = q then some (p :: r :: rest)
      else some (p :: q :: rest)
  | _ => none

/-- The bounded while loop of the triple fix-up: each pass either removes
one pen and rescans from the start, or certifies alternation and stops;
at most `fuel` passes run (`max_iterations = 5`). -/
def fixup : ℕ → List Pen → List Pen
  | 0, pens => pens
  | fuel + 1, pens =>
    match removeFirstViolation pens with
    | none => pens
    | some pens2 => fixup fuel pens2

/-- Pure core of `validate_pens` as a function of `self.pens`. -/
def validate_pens (pens : List Pen) : List Pen :=
  if pens.length < 2 then pens
  else
    let valid :=
      match pens with
      | [] => []
      | p0 :: rest => repair_loop [p0] rest
    let final := valid.filter (fun p => 1 ≤ p.length)
    if 3 ≤ final.length then fixup 5 final else final

/-- State effect of `validate_pens`: the short path returns `self.pens`
unchanged; otherwise `self.pens` is overwritten with the result. -/
def validateStep (s : AState) : AState × List Pen :=
  if s.pens.length < 2 then (s, s.pens)
  else
    let f := validate_pens s.pens
    ({ s with pens := f }, f)

/-! ### divide_segments -/

/-- Direction-based high of a pen as computed inside `_has_overlap`. -/
def dirHigh (p : Pen) : ℚ :=
  if p.direction = Dir.up then p.end_price else p.start_price

/-- Direction-based low of a pen as computed inside `_has_overlap`. -/
def dirLow (p : Pen) : ℚ :=
  if p.direction = Dir.up then p.start_price else p.end_price

/-- The pairwise range test of `_has_overlap`:
`not (pen_i_high < pen_j_low or pen_i_low > pen_j_high)`. -/
def overlap2 (a b : Pen) : Bool :=
  !(dirHigh a < dirLow b || dirLow a > dirHigh b)

/-- Existence of an overlapping pair `i < j` (the loop of `_has_overlap`;
its unused `max_high` / `min_low` computation is omitted). -/
def anyPairOverlap : List Pen → Bool
  | [] => false
  | a :: rest => rest.any (fun b => overlap2 a b) || anyPairOverlap rest

/-- The method `_has_overlap`. -/
def has_overlap (pens : List Pen) : Bool :=
  if pens.length < 2 then false else anyPairOverlap pens

/-- The method `_is_segment_break`. -/
def is_segment_break (segment : Segment) (new_pen : Pen) : Bool :=
  if new_pen.direction = segment.direction then false
  else
    match segment.direction with
    | Dir.up =>
      segment.pens.any fun p => new_pen.end_price < min p.start_price p.end_price
    | Dir.down =>
      segment.pens.any fun p => new_pen.end_price > max p.start_price p.end_price

/-- The initial-segment dict built from a three-pen group. -/
def init_segment (g : List Pen) : Segment :=
  { start_index := (g.getD 0 default).start_index,
    start_datetime := (g.getD 0 default).start_datetime,
    start_price := (g.getD 0 default).start_price,
    end_index := (g.getD 2 default).end_index,
    end_datetime := (g.getD 2 default).end_datetime,
    end_price := (g.getD 2 default).end_price,
    direction := (g.getD 0 default).direction,
    pens := g }

/-- The new-segment dict built on a break, seeded by the last pen of the
broken segment and the breaking pen, with the direction flipped. -/
def break_segment (last : Segment) (cur : Pen) : Segment :=
  { start_index := last.end_index,
    start_datetime := last.end_datetime,
    start_price := last.end_price,
    end_index := cur.end_index,
    end_datetime := cur.end_datetime,
    end_price := cur.end_price,
    direction := if last.direction = Dir.down then Dir.up else Dir.down,
    pens := [last.pens.getLastD default, cur] }

/-- In-place extension of the open segment by the current pen. -/
def extend_segment (last : Segment) (cur : Pen) : Segment :=
  { last with
      end_index := cur.end_index,
      end_datetime := cur.end_datetime,
      end_price := cur.end_price,
      pens := last.pens ++ [cur] }

/-- Loop body of `divide_segments` at pen index `i`.  `revSegs` is
`current_segments` in reverse (head = python `current_segments[-1]`). -/
def segStep (allPens : List Pen) (revSegs : List Segment) (i : ℕ) : List Segment :=
  let cur := allPens.getD i default
  match revSegs with
  | last :: rest =>
    if is_segment_break last cur then break_segment last cur :: last :: rest
    else extend_segment last cur :: rest
  | [] =>
    if i + 2 < allPens.length then
      let test := (allPens.drop i).take 3
      if has_overlap test then [init_segment test] else []
    else []

/-- Pure core of `divide_segments` as a function of `self.pens`. -/
def divide_segments (pens : List Pen) : List Segment :=
  if pens.length < 3 then []
  else
    let init : List Segment :=
      if has_overlap (pens.take 3) then [init_segment (pens.take 3)] else []
    ((List.range' 3 (pens.length - 3)).foldl (segStep pens) init).reverse

/-- State effect of `divide_segments`: the short path returns `[]`
without touching `self.segments`. -/
def divideSegStep (s : AState) : AState × List Segment :=
  if s.pens.length < 3 then (s, [])
  else
    let segs := divide_segments s.pens
    ({ s with segments := segs }, segs)

/-! ### identify_centrals -/

/-- Estimated high of a pen, `max(start_price, end_price)`. -/
def penHigh (p : Pen) : ℚ := max p.start_price p.end_price

/-- Estimated low of a pen, `min(start_price, end_price)`. -/
def penLow (p : Pen) : ℚ := min p.start_price p.end_price

/-- Python `min` of a nonempty list (`0` on the unreachable empty list). -/
def pyMin : List ℚ → ℚ
  | [] => 0
  | x :: xs => xs.foldl min x

/-- Python `max` of a nonempty list (`0` on the unreachable empty list). -/
def pyMax : List ℚ → ℚ
  | [] => 0
  | x :: xs => xs.foldl max x

/-- The canonical three-direction central pattern test,
up-down-up or down-up-down. -/
def isUDU (d0 d1 d2 : Dir) : Bool :=
  (d0 = Dir.up ∧ d1 = Dir.down ∧ d2 = Dir.up) ∨
  (d0 = Dir.down ∧ d1 = Dir.up ∧ d2 = Dir.down)

/-- Whether some window of three consecutive directions matches the
canonical pattern (the loop of the long-group branch of `_is_central`). -/
def hasCentralPattern : List Dir → Bool
  | d0 :: d1 :: d2 :: rest => isUDU d0 d1 d2 || hasCentralPattern (d1 :: d2 :: rest)
  | _ => false

/-- The method `_is_central`. -/
def is_central (pen_group : List Pen) : Bool :=
  if pen_group.length < 3 then false
  else if !has_overlap pen_group then false
  else
    let directions := pen_group.map (fun p => p.direction)
    if pen_group.length = 3 then
      isUDU (directions.getD 0 default) (directions.getD 1 default)
        (directions.getD 2 default)
    else hasCentralPattern directions

/-- Central kind from `directions[0] .. directions[2]` of the group. -/
def central_kind (g : List Pen) : CKind :=
  let directions := g.map (fun p => p.direction)
  let d0 := directions.getD 0 default
  let d1 := directions.getD 1 default
  let d2 := directions.getD 2 default
  if d0 = Dir.up ∧ d1 = Dir.down ∧ d2 = Dir.up then CKind.up
  else if d0 = Dir.down ∧ d1 = Dir.up ∧ d2 = Dir.down then CKind.down
  else CKind.neutral

/-- The central dict constructed from a qualifying window, before any
merging: the band is the intersection of the member ranges
(`high = min` of member highs, `low = max` of member lows). -/
def central_of_group (g : List Pen) : Central :=
  let central_high := pyMin (g.map penHigh)
  let central_low := pyMax (g.map penLow)
  { start_index := (g.headD default).start_index,
    start_datetime := (g.headD default).start_datetime,
    end_index := (g.getLastD default).end_index,
    end_datetime := (g.getLastD default).end_datetime,
    high := central_high,
    low := central_low,
    mid := (central_high + central_low) / 2,
    ctype := central_kind g,
    pens := g,
    crange := central_high - central_low }

/-- The method `_centrals_overlap`: price bands intersect and the index
ranges are within a tolerance of 5 bars. -/
def centrals_overlap (central1 central2 : Central) : Bool :=
  let price_overlap := !(central1.high < central2.low || central1.low > central2.high)
  let time_overlap :=
    !((central1.end_index : ℤ) < (central2.start_index : ℤ) - 5 ||
      (central1.start_index : ℤ) > (central2.end_index : ℤ) + 5)
  price_overlap && time_overlap

/-- The in-place merge of a new central into an existing one: union band,
maximal end, concatenated member lists (`start_index`, `ctype` and
`crange` of the existing central are kept, as in the python code). -/
def merge_centrals (existing c : Central) : Central :=
  let h := max existing.high c.high
  let l := min existing.low c.low
  { existing with
      high := h,
      low := l,
      mid := (h + l) / 2,
      end_index := max existing.end_index c.end_index,
      end_datetime := max existing.end_datetime c.end_datetime,
      pens := existing.pens ++ c.pens }

/-- Merge the freshly built central into the first overlapping existing
central, keeping its position; append it at the end when none overlaps. -/
def insert_central : List Central → Central → List Central
  | [], c => [c]
  | e :: rest, c =>
    if centrals_overlap e c then merge_centrals e c :: rest
    else e :: insert_central rest c

/-- Pure core of `identify_centrals` as a function of `self.pens` and
`min_pens`. -/
def identify_centrals (pens : List Pen) (min_pens : ℕ) : List Central :=
  if pens.length < min_pens then []
  else
    (List.range (pens.length - min_pens + 1)).foldl
      (fun cs i =>
        let pen_group := (pens.drop i).take min_pens
        if is_central pen_group then insert_central cs (central_of_group pen_group)
        else cs)
      []

/-- State effect of `identify_centrals`: the short path returns `[]`
without touching `self.centrals`. -/
def centralsStep (s : AState) (min_pens : ℕ) : AState × List Central :=
  if s.pens.length < min_pens then (s, [])
  else
    let cs := identify_centrals s.pens min_pens
    ({ s with centrals := cs }, cs)

/-! ### The full pipeline, as invoked in `main` -/

/-- The collections returned by the pipeline stages on one full run. -/
structure POut where
  filtered : List TFractal
  pens_divided : List Pen
  pens_validated : List Pen
  segments : List Segment
  centrals : List Central
deriving DecidableEq, Repr

/-- One full pipeline run over a fixed analyzer state, in the order of
`main`: `identify_fractals`, `filter_fractals`, `divide_pens`,
`validate_pens`, `divide_segments`, `identify_centrals`. -/
def runPipeline (s : AState) (df : Bars) (k : ℕ) (thr : ℚ) (min_pens : ℕ) :
    AState × POut :=
  let s1 := identifyStep s df k
  let fr := filterStep s1
  let dp := dividePensStep fr.1 fr.2 thr
  let vp := validateStep dp.1
  let ds := divideSegStep vp.1
  let ic := centralsStep ds.1 min_pens
  (ic.1, ⟨fr.2, dp.2, vp.2, ds.2, ic.2⟩)

/-! ### Generic slice helper used to state contiguity -/

/-- The sub-list `l[a:b]` of a list, used to state that a segment's
member pens are a contiguous sub-sequence of the validated pen list. -/
def listSlice {α : Type} (l : List α) (a b : ℕ) : List α := (l.drop a).take (b - a)

/-! ### Concrete inputs used by counterexamples and witnesses -/

/-- A five-bar series whose middle bar is simultaneously a strict local
high and a strict local low. -/
def df6 : Bars := ⟨[0, 1, 2, 3, 4], [5, 5, 10, 5, 5], [5, 5, 0, 5, 5]⟩

/-- Up pen 100 → 110. -/
def p1 : Pen :=
  { start_index := 0, start_datetime := 0, start_price := 100, start_type := FKind.bottom,
    end_index := 2, end_datetime := 2, end_price := 110, end_type := FKind.top,
    direction := Dir.up, length := 2, price_change := 10, price_change_percent := 1/10 }

/-- Down pen 110 → 105. -/
def p2 : Pen :=
  { start_index := 2, start_datetime := 2, start_price := 110, start_type := FKind.top,
    end_index := 4, end_datetime := 4, end_price := 105, end_type := FKind.bottom,
    direction := Dir.down, length := 2, price_change := 5, price_change_percent := 5/110 }

/-- Up pen 105 → 112. -/
def p3 : Pen :=
  { start_index := 4, start_datetime := 4, start_price := 105, start_type := FKind.bottom,
    end_index := 6, end_datetime := 6, end_price := 112, end_type := FKind.top,
    direction := Dir.up, length := 2, price_change := 7, price_change_percent := 7/105 }

/-- Down pen 112 → 103: below the low of some member pen of
`[p1, p2, p3]` (105) but not below every member low (100). -/
def p4x : Pen :=
  { start_index := 6, start_datetime := 6, start_price := 112, start_type := FKind.top,
    end_index := 8, end_datetime := 8, end_price := 103, end_type := FKind.bottom,
    direction := Dir.down, length := 2, price_change := 9, price_change_percent := 9/112 }

/-- Down pen 112 → 90: breaks the up segment over `[p1, p2, p3]`. -/
def p4 : Pen :=
  { start_index := 6, start_datetime := 6, start_price := 112, start_type := FKind.top,
    end_index := 8, end_datetime := 8, end_price := 90, end_type := FKind.bottom,
    direction := Dir.down, length := 2, price_change := 22, price_change_percent := 22/112 }

/-- Up pen 100 → 110 at indices 0–1. -/
def r0 : Pen :=
  { start_index := 0, start_datetime := 0, start_price := 100, start_type := FKind.bottom,
    end_index := 1, end_datetime := 1, end_price := 110, end_type := FKind.top,
    direction := Dir.up, length := 1, price_change := 10, price_change_percent := 1/10 }

/-- Down pen 200 → 190, disjoint in price from `r0` and `r2`. -/
def r1 : Pen :=
  { start_index := 1, start_datetime := 1, start_price := 200, start_type := FKind.top,
    end_index := 2, end_datetime := 2, end_price := 190, end_type := FKind.bottom,
    direction := Dir.down, length := 1, price_change := 10, price_change_percent := 1/20 }

/-- Up pen 300 → 310, disjoint in price from `r0` and `r1`. -/
def r2 : Pen :=
  { start_index := 2, start_datetime := 2, start_price := 300, start_type := FKind.bottom,
    end_index := 3, end_datetime := 3, end_price := 310, end_type := FKind.top,
    direction := Dir.up, length := 1, price_change := 10, price_change_percent := 1/30 }

/-- Up pen 100 → 110 at indices 3–4. -/
def r3 : Pen :=
  { start_index := 3, start_datetime := 3, start_price := 100, start_type := FKind.bottom,
    end_index := 4, end_datetime := 4, end_price := 110, end_type := FKind.top,
    direction := Dir.up, length := 1, price_change := 10, price_change_percent := 1/10 }

/-- Down pen 110 → 105. -/
def r4 : Pen :=
  { start_index := 4, start_datetime := 4, start_price := 110, start_type := FKind.top,
    end_index := 5, end_datetime := 5, end_price := 105, end_type := FKind.bottom,
    direction := Dir.down, length := 1, price_change := 5, price_change_percent := 5/110 }

/-- Up pen 105 → 112. -/
def r5 : Pen :=
  { start_index := 5, start_datetime := 5, start_price := 105, start_type := FKind.bottom,
    end_index := 6, end_datetime := 6, end_price := 112, end_type := FKind.top,
    direction := Dir.up, length := 1, price_change := 7, price_change_percent := 7/105 }

/-- Pen list whose first triple has no price overlap while the triple
starting at index 3 does. -/
def P5 : List Pen := [r0, r1, r2, r3, r4, r5]

/-- Up pen 100 → 110. -/
def w1 : Pen :=
  { start_index := 0, start_datetime := 0, start_price := 100, start_type := FKind.bottom,
    end_index := 1, end_datetime := 1, end_price := 110, end_type := FKind.top,
    direction := Dir.up, length := 1, price_change := 10, price_change_percent := 1/10 }

/-- Down pen 110 → 100, overlapping `w1`. -/
def w2 : Pen :=
  { start_index := 1, start_datetime := 1, start_price := 110, start_type := FKind.top,
    end_index := 2, end_datetime := 2, end_price := 100, end_type := FKind.bottom,
    direction := Dir.down, length := 1, price_change := 10, price_change_percent := 1/11 }

/-- Up pen 200 → 210, disjoint from `w1` and `w2`. -/
def w3 : Pen :=
  { start_index := 2, start_datetime := 2, start_price := 200, start_type := FKind.bottom,
    end_index := 3, end_datetime := 3, end_price := 210, end_type := FKind.top,
    direction := Dir.up, length := 1, price_change := 10, price_change_percent := 1/20 }

/-- Up pen 100 → 110. -/
def q0 : Pen :=
  { start_index := 0, start_datetime := 0, start_price := 100, start_type := FKind.bottom,
    end_index := 1, end_datetime := 1, end_price := 110, end_type := FKind.top,
    direction := Dir.up, length := 1, price_change := 10, price_change_percent := 1/10 }

/-- Down pen 110 → 102. -/
def q1 : Pen :=
  { start_index := 1, start_datetime := 1, start_price := 110, start_type := FKind.top,
    end_index := 2, end_datetime := 2, end_price := 102, end_type := FKind.bottom,
    direction := Dir.down, length := 1, price_change := 8, price_change_percent := 8/110 }

/-- Up pen 102 → 108. -/
def q2 : Pen :=
  { start_index := 2, start_datetime := 2, start_price := 102, start_type := FKind.bottom,
    end_index := 3, end_datetime := 3, end_price := 108, end_type := FKind.top,
    direction := Dir.up, length := 1, price_change := 6, price_change_percent := 6/102 }

/-- Down pen 108 → 103, whose range meets the band of `[q0, q1, q2]`. -/
def q3 : Pen :=
  { start_index := 3, start_datetime := 3, start_price := 108, start_type := FKind.top,
    end_index := 4, end_datetime := 4, end_price := 103, end_type := FKind.bottom,
    direction := Dir.down, length := 1, price_change := 5, price_change_percent := 5/108 }

/-- A single pen of bar length 0. -/
def z : Pen :=
  { start_index := 5, start_datetime := 5, start_price := 100, start_type := FKind.top,
    end_index := 5, end_datetime := 5, end_price := 90, end_type := FKind.bottom,
    direction := Dir.down, length := 0, price_change := 10, price_change_percent := 1/10 }

/-- A pen pair used by the short-input witness. -/
def s8 : Pen :=
  { start_index := 0, start_datetime := 0, start_price := 100, start_type := FKind.bottom,
    end_index := 1, end_datetime := 1, end_price := 110, end_type := FKind.top,
    direction := Dir.up, length := 1, price_change := 10, price_change_percent := 1/10 }

/-- Invariant of the `divide_segments` loop once an initial segment
exists: the reversed segment list is nonempty, its head (the open
segment) carries the pens `pens[a:j]` for some `a < j` with its last
member pen equal to `pens[j-1]`, and every closed segment carries a
contiguous slice of the pen list. -/
def SliceInv (pens : List Pen) (j : ℕ) (revSegs : List Segment) : Prop :=
  ∃ hd tl, revSegs = hd :: tl ∧
    (∃ a, a < j ∧ hd.pens = listSlice pens a j ∧
      hd.pens.getLastD default = pens.getD (j - 1) default) ∧
    (∀ s ∈ tl, ∃ a n, s.pens = (pens.drop a).take n)

/-! ### Claim C1 -/

/-- C1, counterexample: `divide_segments` (through `_is_segment_break`)
declares the up segment over `[p1, p2, p3]` broken by the opposite pen
`p4x` even though the end price of `p4x` (103) is not below
`min(start_price, end_price)` of every member pen (it is not below 100,
the low of `p1`); the claimed every-member condition is false at this
input while the code reports a break. -/
theorem C1_counterexample :
    p4x.direction ≠ (init_segment [p1, p2, p3]).direction ∧
    is_segment_break (init_segment [p1, p2, p3]) p4x = true ∧
    ¬ ∀ q ∈ (init_segment [p1, p2, p3]).pens,
        p4x.end_price < min q.start_price q.end_price := by
  decide

/-- C1, amended: for a pen opposite to the segment's direction,
`_is_segment_break` reports a break exactly when the pen's end price
exceeds the corresponding extreme of SOME member pen of the segment —
below `min(start_price, end_price)` of at least one member pen for an Up
segment, above `max(start_price, end_price)` of at least one member pen
for a Down segment. -/
theorem C1_amended (segment : Segment) (new_pen : Pen) :
    is_segment_break segment new_pen = true ↔
      new_pen.direction ≠ segment.direction ∧
      ((segment.direction = Dir.up ∧
          ∃ q ∈ segment.pens, new_pen.end_price < min q.start_price q.end_price) ∨
       (segment.direction = Dir.down ∧
          ∃ q ∈ segment.pens, new_pen.end_price > max q.start_price q.end_price)) := by
  unfold is_segment_break
  by_cases h : new_pen.direction = segment.direction <;>
    cases hd : segment.direction <;>
    simp [h, hd, List.any_eq_true]

/-! ### Claim C6 -/

/-- C6, counterexample: on the bar series `df6` with window radius 2,
bar index 2 is marked both as a top fractal and as a bottom fractal, so
`identify_fractals` can mark the same bar with both kinds. -/
theorem C6_counterexample :
    2 ∈ (identify_tops df6 2).map Fractal.index ∧
    2 ∈ (identify_bottoms df6 2).map Fractal.index := by
  decide

/-- C6, amended: the top and bottom tests of `identify_fractals` are
independent; an interior index is marked both top and bottom exactly when
its high is strictly above the highs of the `k` bars on each side and its
low is strictly below the lows of the `k` bars on each side. -/
theorem C6_amended (df : Bars) (k i : ℕ) :
    ((∃ f ∈ identify_tops df k, f.index = i) ∧
     (∃ f ∈ identify_bottoms df k, f.index = i)) ↔
      (k ≤ i ∧ i + k < df.highs.length ∧
       isTopAt df.highs k i = true ∧ isBottomAt df.lows k i = true) := by
  have hmem : ∀ j, j ∈ fractalRange df.highs.length k ↔
      (k ≤ j ∧ j + k < df.highs.length) := by
    intro j
    simp only [fractalRange, List.mem_range'_1]
    omega
  constructor
  · rintro ⟨⟨f, hf, rfl⟩, ⟨g, hg, hgi⟩⟩
    simp only [identify_tops, identify_bottoms, List.mem_filterMap] at hf hg
    obtain ⟨j, hj, hjf⟩ := hf
    obtain ⟨j2, hj2, hj2g⟩ := hg
    by_cases ht : isTopAt df.highs k j
    · by_cases hb : isBottomAt df.lows k j2
      · simp only [ht, if_true, Option.some.injEq] at hjf
        simp only [hb, if_true, Option.some.injEq] at hj2g
        subst hjf
        subst hj2g
        simp only [] at hgi ⊢
        subst hgi
        rw [hmem] at hj hj2
        exact ⟨hj.1, by omega, ht, hb⟩
      · simp [hb] at hj2g
    · simp [ht] at hjf
  · rintro ⟨hk, hlen, ht, hb⟩
    refine ⟨⟨⟨i, df.dts.getD i 0, df.highs.getD i 0⟩, ?_, rfl⟩,
            ⟨⟨i, df.dts.getD i 0, df.lows.getD i 0⟩, ?_, rfl⟩⟩
    · simp only [identify_tops, List.mem_filterMap]
      exact ⟨i, (hmem i).2 ⟨hk, hlen⟩, by simp [ht]⟩
    · simp only [identify_bottoms, List.mem_filterMap]
      exact ⟨i, (hmem i).2 ⟨hk, hlen⟩, by simp [hb]⟩

/-! ### Claim C8 -/

/-- C8: structurally insufficient input degrades to empty: fewer than 2
filtered fractals make `divide_pens` return an empty pen list, and fewer
than 3 validated pens make `divide_segments` and `identify_centrals`
(with the default `min_pens = 3`) each return empty lists. -/
theorem C8 (filtered : List TFractal) (thr : ℚ) (pens : List Pen)
    (h2 : filtered.length < 2) (h3 : pens.length < 3) :
    divide_pens filtered thr = [] ∧ divide_segments pens = [] ∧
    identify_centrals pens 3 = [] := by
  refine ⟨?_, ?_, ?_⟩
  · simp [divide_pens, h2]
  · simp [divide_segments, h3]
  · simp [identify_centrals, h3]

/-- Witness for C8 at a one-fractal, two-pen input. -/
theorem C8_witness :
    ([⟨0, 0, 100, FKind.top⟩] : List TFractal).length < 2 ∧
    ([s8, z] : List Pen).length < 3 ∧
    divide_pens [⟨0, 0, 100, FKind.top⟩] (5/1000) = [] ∧
    divide_segments [s8, z] = [] ∧
    identify_centrals [s8, z] 3 = [] := by
  have h := C8 [⟨0, 0, 100, FKind.top⟩] (5/1000) [s8, z] (by decide) (by decide)
  exact ⟨by decide, by decide, h.1, h.2.1, h.2.2⟩

/-! ### Claim C10 -/

/-- C10: when fewer than 2 pens were produced, `validate_pens` returns
the pen list unchanged — no alternation repair, no minimum-length
filter and no triple fix-up runs. -/
theorem C10 (pens : List Pen) (h : pens.length < 2) :
    validate_pens pens = pens := by
  simp [validate_pens, h]

/-- Witness for C10: a single pen with bar length 0 survives validation
unchanged. -/
theorem C10_witness :
    ([z] : List Pen).length < 2 ∧ z.length = 0 ∧ validate_pens [z] = [z] :=
  ⟨by decide, by decide, C10 [z] (by decide)⟩

/-! ### Claim C7 -/

/-- Invariant of the filtering loop: starting from an accumulator whose
kinds already alternate, whose head realises `last_type`, and which is
empty iff `last_type` is unset, the finished list alternates in kind. -/
theorem filter_loop_chain (input : List TFractal) :
    ∀ (acc : List TFractal) (last : Option FKind),
    (∀ lt, last = some lt → ∃ prev tl, acc = prev :: tl ∧ prev.kind = lt) →
    (last = none → acc = []) →
    List.Chain' (fun a b => a.kind ≠ b.kind) acc →
    List.Chain' (fun a b => a.kind ≠ b.kind) (filter_loop acc last input) := by
  induction input with
  | nil =>
    intro acc last _ _ hacc
    simp only [filter_loop]
    rw [List.chain'_reverse]
    exact hacc.imp fun _ _ h => Ne.symm h
  | cons f rest ih =>
    intro acc last hsome hnone hacc
    match last with
    | none =>
      have hempty : acc = [] := hnone rfl
      subst hempty
      simp only [filter_loop]
      exact ih [f] (some f.kind)
        (fun lt h => ⟨f, [], rfl, Option.some.inj h⟩)
        (fun h => by cases h) (by simp)
    | some lt =>
      simp only [filter_loop]
      by_cases hk : f.kind = lt
      · obtain ⟨prev, tl, rfl, hpk⟩ := hsome lt rfl
        simp only [hk, if_true]
        obtain ⟨hhd, htl⟩ := List.chain'_cons'.mp hacc
        have hinvTail : ∀ b, b ∈ tl.head? → f.kind ≠ b.kind := by
          intro b hb
          rw [hk, ← hpk]
          exact hhd b hb
        have hchainNew : List.Chain' (fun a b => a.kind ≠ b.kind) (f :: tl) :=
          List.chain'_cons'.mpr ⟨hinvTail, htl⟩
        have hsomeNew : ∀ lt2, (some lt : Option FKind) = some lt2 →
            ∃ prev2 tl2, f :: tl = prev2 :: tl2 ∧ prev2.kind = lt2 := by
          intro lt2 h2
          injection h2 with h2
          exact ⟨f, tl, rfl, by rw [hk, h2]⟩
        have hsomeOld : ∀ lt2, (some lt : Option FKind) = some lt2 →
            ∃ prev2 tl2, prev :: tl = prev2 :: tl2 ∧ prev2.kind = lt2 := by
          intro lt2 h2
          injection h2 with h2
          exact ⟨prev, tl, rfl, by rw [hpk, h2]⟩
        cases lt with
        | top =>
          by_cases hp : f.price > prev.price
          · simp only [hp, if_true]
            exact ih (f :: tl) (some FKind.top) hsomeNew (fun h => by cases h) hchainNew
          · simp only [hp, if_false]
            exact ih (prev :: tl) (some FKind.top) hsomeOld (fun h => by cases h) hacc
        | bottom =>
          by_cases hp : f.price < prev.price
          · simp only [hp, if_true]
            exact ih (f :: tl) (some FKind.bottom) hsomeNew (fun h => by cases h) hchainNew
          · simp only [hp, if_false]
            exact ih (prev :: tl) (some FKind.bottom) hsomeOld (fun h => by cases h) hacc
      · simp only [hk, if_false]
        have hchainNew : List.Chain' (fun a b => a.kind ≠ b.kind) (f :: acc) := by
          refine List.chain'_cons'.mpr ⟨?_, hacc⟩
          intro b hb
          obtain ⟨prev, tl, rfl, hpk⟩ := hsome lt rfl
          simp only [List.head?_cons, Option.mem_def, Option.some.injEq] at hb
          rw [← hb, hpk]
          exact hk
        exact ih (f :: acc) (some f.kind)
          (fun lt2 h2 => ⟨f, acc, rfl, Option.some.inj h2⟩)
          (fun h => by cases h) hchainNew

/-- C7: the sequence returned by `filter_fractals` strictly alternates in
kind — no two consecutive fractals of the filtered output share the
top/bottom kind, for every pair of input candidate lists. -/
theorem C7 (tops bottoms : List Fractal) :
    List.Chain' (fun a b => a.kind ≠ b.kind) (filter_fractals tops bottoms) :=
  filter_loop_chain (all_fractals tops bottoms) [] none
    (fun _ h => by cases h) (fun _ => rfl) List.chain'_nil

/-! ### Claim C3 -/

/-- C3, counterexample: on the chained pens `[p1, p2, p3, p4]` the break
at `p4` opens a new segment seeded with only 2 pens, and `divide_segments`
returns it without any discarding — the returned list contains a segment
with fewer than 3 member pens. -/
theorem C3_counterexample :
    (divide_segments [p1, p2, p3, p4]).length = 2 ∧
    ((divide_segments [p1, p2, p3, p4]).getD 1 default).pens.length = 2 ∧
    ¬ ∀ seg ∈ divide_segments [p1, p2, p3, p4], 3 ≤ seg.pens.length := by
  decide

/-- Any segment produced by one loop step of `divide_segments` has at
least 2 member pens when every segment before the step does. -/
theorem segStep_pens_min2 (allPens : List Pen) (revSegs : List Segment) (i : ℕ)
    (h : ∀ s ∈ revSegs, 2 ≤ s.pens.length) :
    ∀ s ∈ segStep allPens revSegs i, 2 ≤ s.pens.length := by
  intro s hs
  cases revSegs with
  | cons last rest =>
    simp only [segStep] at hs
    split at hs
    · simp only [List.mem_cons] at hs
      rcases hs with hs | hs | hs
      · subst hs
        simp [break_segment]
      · rw [hs]
        exact h last (by simp)
      · exact h s (by simp [hs])
    · simp only [List.mem_cons] at hs
      rcases hs with hs | hs
      · subst hs
        have hlast := h last (by simp)
        simp only [extend_segment, List.length_append, List.length_cons,
          List.length_nil]
        omega
      · exact h s (by simp [hs])
  | nil =>
    simp only [segStep] at hs
    split at hs
    · split at hs
      · simp only [List.mem_cons, List.not_mem_nil, or_false] at hs
        subst hs
        simp only [init_segment, List.length_take, List.length_drop]
        omega
      · simp at hs
    · simp at hs

/-- The minimum-2-pens property is preserved along the whole fold of
`divide_segments`. -/
theorem foldl_segStep_min2 (allPens : List Pen) :
    ∀ (idxs : List ℕ) (revSegs : List Segment),
    (∀ s ∈ revSegs, 2 ≤ s.pens.length) →
    ∀ s ∈ idxs.foldl (segStep allPens) revSegs, 2 ≤ s.pens.length := by
  intro idxs
  induction idxs with
  | nil =>
    intro revSegs h
    simpa using h
  | cons i rest ih =>
    intro revSegs h
    simp only [List.foldl_cons]
    exact ih _ (segStep_pens_min2 allPens revSegs i h)

/-- C3, amended: no discarding of short segments happens, but every
segment returned by `divide_segments` has at least 2 member pens — an
initial segment starts with 3 pens, a break-seeded segment with 2, and
pens are only ever appended afterwards. -/
theorem C3_amended (pens : List Pen) :
    ∀ seg ∈ divide_segments pens, 2 ≤ seg.pens.length := by
  intro seg hseg
  unfold divide_segments at hseg
  split at hseg
  · cases hseg
  · rw [List.mem_reverse] at hseg
    refine foldl_segStep_min2 pens _ _ ?_ seg hseg
    intro s hs
    split at hs
    · simp only [List.mem_cons, List.not_mem_nil, or_false] at hs
      subst hs
      simp only [init_segment, List.length_take]
      omega
    · simp at hs

/-- Witness for C3 at the concrete pen list `[p1, p2, p3, p4]`. -/
theorem C3_witness :
    init_segment [p1, p2, p3] ∈ divide_segments [p1, p2, p3, p4] ∧
    2 ≤ (init_segment [p1, p2, p3]).pens.length := by
  have hres : divide_segments [p1, p2, p3, p4] =
      [init_segment [p1, p2, p3],
       break_segment (init_segment [p1, p2, p3]) p4] := by rfl
  refine ⟨?_, C3_amended [p1, p2, p3, p4] (init_segment [p1, p2, p3]) ?_⟩ <;>
    rw [hres] <;> simp

/-! ### Claim C4 -/

/-- A value is strictly below a `min`-fold iff it is strictly below the
seed and every list element. -/
theorem lt_foldl_min (xs : List ℚ) :
    ∀ x a : ℚ, (a < xs.foldl min x ↔ a < x ∧ ∀ y ∈ xs, a < y) := by
  induction xs with
  | nil =>
    intro x a
    simp
  | cons y ys ih =>
    intro x a
    simp only [List.foldl_cons, List.mem_cons]
    rw [ih]
    rw [lt_min_iff]
    constructor
    · rintro ⟨⟨h1, h2⟩, h3⟩
      exact ⟨h1, fun t ht => ht.elim (fun e => e ▸ h2) (h3 t)⟩
    · rintro ⟨h1, h2⟩
      exact ⟨⟨h1, h2 y (Or.inl rfl)⟩, fun t ht => h2 t (Or.inr ht)⟩

/-- A `max`-fold is strictly below a value iff the seed and every list
element are. -/
theorem foldl_max_lt (xs : List ℚ) :
    ∀ x a : ℚ, (xs.foldl max x < a ↔ x < a ∧ ∀ y ∈ xs, y < a) := by
  induction xs with
  | nil =>
    intro x a
    simp
  | cons y ys ih =>
    intro x a
    simp only [List.foldl_cons, List.mem_cons]
    rw [ih]
    rw [max_lt_iff]
    constructor
    · rintro ⟨⟨h1, h2⟩, h3⟩
      exact ⟨h1, fun t ht => ht.elim (fun e => e ▸ h2) (h3 t)⟩
    · rintro ⟨h1, h2⟩
      exact ⟨⟨h1, h2 y (Or.inl rfl)⟩, fun t ht => h2 t (Or.inr ht)⟩

/-- A value is at most a `min`-fold iff it is at most the seed and every
list element. -/
theorem le_foldl_min (xs : List ℚ) :
    ∀ x a : ℚ, (a ≤ xs.foldl min x ↔ a ≤ x ∧ ∀ y ∈ xs, a ≤ y) := by
  induction xs with
  | nil =>
    intro x a
    simp
  | cons y ys ih =>
    intro x a
    simp only [List.foldl_cons, List.mem_cons]
    rw [ih]
    rw [le_min_iff]
    constructor
    · rintro ⟨⟨h1, h2⟩, h3⟩
      exact ⟨h1, fun t ht => ht.elim (fun e => e ▸ h2) (h3 t)⟩
    · rintro ⟨h1, h2⟩
      exact ⟨⟨h1, h2 y (Or.inl rfl)⟩, fun t ht => h2 t (Or.inr ht)⟩

/-- A `max`-fold is at most a value iff the seed and every list element
are. -/
theorem foldl_max_le (xs : List ℚ) :
    ∀ x a : ℚ, (xs.foldl max x ≤ a ↔ x ≤ a ∧ ∀ y ∈ xs, y ≤ a) := by
  induction xs with
  | nil =>
    intro x a
    simp
  | cons y ys ih =>
    intro x a
    simp only [List.foldl_cons, List.mem_cons]
    rw [ih]
    rw [max_le_iff]
    constructor
    · rintro ⟨⟨h1, h2⟩, h3⟩
      exact ⟨h1, fun t ht => ht.elim (fun e => e ▸ h2) (h3 t)⟩
    · rintro ⟨h1, h2⟩
      exact ⟨⟨h1, h2 y (Or.inl rfl)⟩, fun t ht => h2 t (Or.inr ht)⟩

/-- `pyMax A < pyMin B` iff every element of `A` is strictly below every
element of `B`, for nonempty `A` and `B`. -/
theorem pyMax_lt_pyMin (A B : List ℚ) (hA : A ≠ []) (hB : B ≠ []) :
    (pyMax A < pyMin B ↔ ∀ a ∈ A, ∀ b ∈ B, a < b) := by
  match A, B with
  | x :: xs, y :: ys =>
    simp only [pyMax, pyMin]
    rw [lt_foldl_min ys y (List.foldl max x xs)]
    constructor
    · rintro ⟨h1, h2⟩
      intro a ha b hb
      have hx : ∀ b2, List.foldl max x xs < b2 → a ≤ List.foldl max x xs → a < b2 :=
        fun b2 hfb hafb => lt_of_le_of_lt hafb hfb
      have hamax : a ≤ List.foldl max x xs := by
        rcases List.mem_cons.mp ha with h | h
        · subst h
          by_contra hc
          push_neg at hc
          exact absurd ((foldl_max_lt xs a a).mp hc).1 (lt_irrefl a)
        · by_contra hc
          push_neg at hc
          exact absurd (((foldl_max_lt xs x a).mp hc).2 a h) (lt_irrefl a)
      rcases List.mem_cons.mp hb with h | h
      · subst h
        exact lt_of_le_of_lt hamax h1
      · exact lt_of_le_of_lt hamax (h2 b h)
    · intro hall
      have hmax : ∀ b, (∀ a ∈ x :: xs, a < b) → List.foldl max x xs < b := by
        intro b hb
        rw [foldl_max_lt]
        exact ⟨hb x (by simp), fun t ht => hb t (by simp [ht])⟩
      exact ⟨hmax y (fun a ha => hall a ha y (by simp)),
             fun t ht => hmax t (fun a ha => hall a ha t (by simp [ht]))⟩

/-- `pyMax A ≤ x ≤ pyMin B` iff `x` is in every interval `[a, b]` with
`a ∈ A`, `b ∈ B`, for nonempty `A` and `B`. -/
theorem pyMax_le_le_pyMin (A B : List ℚ) (hA : A ≠ []) (hB : B ≠ []) (x : ℚ) :
    (pyMax A ≤ x ∧ x ≤ pyMin B) ↔ (∀ a ∈ A, a ≤ x) ∧ (∀ b ∈ B, x ≤ b) := by
  match A, B with
  | u :: us, v :: vs =>
    simp only [pyMax, pyMin]
    rw [foldl_max_le us u x, le_foldl_min vs v x]
    constructor
    · rintro ⟨⟨h1, h2⟩, h3, h4⟩
      refine ⟨?_, ?_⟩
      · intro a ha
        rcases List.mem_cons.mp ha with h | h
        · exact h ▸ h1
        · exact h2 a h
      · intro b hb
        rcases List.mem_cons.mp hb with h | h
        · exact h ▸ h3
        · exact h4 b h
    · rintro ⟨h1, h2⟩
      exact ⟨⟨h1 u (by simp), fun t ht => h1 t (by simp [ht])⟩,
             h2 v (by simp), fun t ht => h2 t (by simp [ht])⟩

/-- C4, counterexample: the window `[w1, w2, w3]` passes `_is_central`
(its direction pattern is up-down-up and `w1`, `w2` overlap) yet the
central constructed from it has `high = 110 < 200 = low`, because `w3`
is price-disjoint from the other members and `_has_overlap` only demands
one overlapping pair; `identify_centrals` emits exactly this central. -/
theorem C4_counterexample :
    is_central [w1, w2, w3] = true ∧
    identify_centrals [w1, w2, w3] 3 = [central_of_group [w1, w2, w3]] ∧
    (central_of_group [w1, w2, w3]).high < (central_of_group [w1, w2, w3]).low := by
  refine ⟨by decide, by rfl, by decide⟩

/-- C4, amended: a central emitted before merging satisfies `low < high`
exactly when every member pen's estimated low, `min(start_price,
end_price)`, is strictly below every member pen's estimated high,
`max(start_price, end_price)`; the code's `_has_overlap` test demands
only one overlapping pair, which does not imply this. -/
theorem C4_amended (g : List Pen) (h : g ≠ []) :
    ((central_of_group g).low < (central_of_group g).high ↔
      ∀ p ∈ g, ∀ q ∈ g, penLow p < penHigh q) := by
  show pyMax (g.map penLow) < pyMin (g.map penHigh) ↔ _
  rw [pyMax_lt_pyMin (g.map penLow) (g.map penHigh) (by simpa using h) (by simpa using h)]
  constructor
  · intro hall p hp q hq
    exact hall (penLow p) (List.mem_map_of_mem penLow hp)
      (penHigh q) (List.mem_map_of_mem penHigh hq)
  · intro hall a ha b hb
    obtain ⟨p, hp, rfl⟩ := List.mem_map.mp ha
    obtain ⟨q, hq, rfl⟩ := List.mem_map.mp hb
    exact hall p hp q hq

/-- Witness for C4 at the concrete window `[w1, w2, w3]`. -/
theorem C4_witness :
    ([w1, w2, w3] : List Pen) ≠ [] ∧
    ((central_of_group [w1, w2, w3]).low < (central_of_group [w1, w2, w3]).high ↔
      ∀ p ∈ ([w1, w2, w3] : List Pen), ∀ q ∈ ([w1, w2, w3] : List Pen),
        penLow p < penHigh q) :=
  ⟨by simp, C4_amended [w1, w2, w3] (by simp)⟩

/-! ### Claim C2 -/

/-- C2, counterexample: on the pen list `[q0, q1, q2, q3]` the first
window `[q0, q1, q2]` qualifies as a central; the next pen `q3` has a
price range meeting the central's band, yet the central emitted before
merging keeps exactly the 3 window pens and does not absorb `q3` — no
forward growing happens (overlapping windows are handled by the merge
step instead, which here merges the two windows into one central). -/
theorem C2_counterexample :
    is_central [q0, q1, q2] = true ∧
    ¬(penHigh q3 < (central_of_group [q0, q1, q2]).low ∨
      penLow q3 > (central_of_group [q0, q1, q2]).high) ∧
    (central_of_group [q0, q1, q2]).pens = [q0, q1, q2] ∧
    q3 ∉ (central_of_group [q0, q1, q2]).pens ∧
    identify_centrals [q0, q1, q2, q3] 3 =
      [merge_centrals (central_of_group [q0, q1, q2])
        (central_of_group [q1, q2, q3])] := by
  refine ⟨by decide, by decide, rfl, by decide, by rfl⟩

/-- C2, amended: `identify_centrals` performs no forward window growth:
a central emitted before merging consists of exactly the pens of its
`min_pens`-sized window, and its band is the intersection of exactly
those pens' estimated ranges — a price sits in the band iff it sits in
every member pen's range.  Wider zones arise only through the merge
step. -/
theorem C2_amended (g : List Pen) (h : g ≠ []) :
    (central_of_group g).pens = g ∧
    ∀ x : ℚ, ((central_of_group g).low ≤ x ∧ x ≤ (central_of_group g).high) ↔
      ∀ p ∈ g, penLow p ≤ x ∧ x ≤ penHigh p := by
  refine ⟨rfl, ?_⟩
  intro x
  show (pyMax (g.map penLow) ≤ x ∧ x ≤ pyMin (g.map penHigh)) ↔ _
  rw [pyMax_le_le_pyMin (g.map penLow) (g.map penHigh)
    (by simpa using h) (by simpa using h) x]
  constructor
  · rintro ⟨h1, h2⟩ p hp
    exact ⟨h1 (penLow p) (List.mem_map_of_mem penLow hp),
           h2 (penHigh p) (List.mem_map_of_mem penHigh hp)⟩
  · intro hall
    constructor
    · intro a ha
      obtain ⟨p, hp, rfl⟩ := List.mem_map.mp ha
      exact (hall p hp).1
    · intro b hb
      obtain ⟨q, hq, rfl⟩ := List.mem_map.mp hb
      exact (hall q hq).2

/-- Witness for C2 at the concrete window `[q0, q1, q2]`. -/
theorem C2_witness :
    ([q0, q1, q2] : List Pen) ≠ [] ∧
    (central_of_group [q0, q1, q2]).pens = [q0, q1, q2] ∧
    ∀ x : ℚ, ((central_of_group [q0, q1, q2]).low ≤ x ∧
        x ≤ (central_of_group [q0, q1, q2]).high) ↔
      ∀ p ∈ ([q0, q1, q2] : List Pen), penLow p ≤ x ∧ x ≤ penHigh p := by
  have h := C2_amended [q0, q1, q2] (by simp)
  exact ⟨by simp, h.1, h.2⟩

/-! ### Claim C5 -/

/-- Appending the element at position `j` extends the slice `l[a:j]` to
`l[a:j+1]`. -/
theorem listSlice_append_getD {α : Type} [Inhabited α] (l : List α) (a j : ℕ)
    (ha : a ≤ j) (hj : j < l.length) :
    listSlice l a j ++ [l.getD j default] = listSlice l a (j + 1) := by
  unfold listSlice
  have h1 : j + 1 - a = (j - a) + 1 := by omega
  rw [h1, List.take_succ]
  congr 1
  rw [List.getElem?_drop]
  have h2 : a + (j - a) = j := by omega
  rw [h2]
  rw [List.getElem?_eq_getElem hj]
  simp [List.getElem?_eq_getElem hj]

/-- One loop step of `divide_segments` preserves the slice invariant. -/
theorem segStep_slice (pens : List Pen) (j : ℕ) (revSegs : List Segment)
    (h1 : 1 ≤ j) (hj : j < pens.length) (hinv : SliceInv pens j revSegs) :
    SliceInv pens (j + 1) (segStep pens revSegs j) := by
  obtain ⟨hd, tl, rfl, ⟨a, ha, hpens, hlast⟩, htl⟩ := hinv
  simp only [segStep]
  split
  · refine ⟨break_segment hd (pens.getD j default), hd :: tl, rfl,
      ⟨j - 1, by omega, ?_, ?_⟩, ?_⟩
    · show [hd.pens.getLastD default, pens.getD j default] = listSlice pens (j - 1) (j + 1)
      rw [hlast]
      have e0 : listSlice pens (j - 1) (j - 1) = [] := by
        simp [listSlice]
      have e1 : listSlice pens (j - 1) (j - 1) ++ [pens.getD (j - 1) default] =
          listSlice pens (j - 1) ((j - 1) + 1) :=
        listSlice_append_getD pens (j - 1) (j - 1) (by omega) (by omega)
      have e2 : (j - 1) + 1 = j := by omega
      rw [e2] at e1
      rw [e0] at e1
      simp only [List.nil_append] at e1
      have e3 : listSlice pens (j - 1) j ++ [pens.getD j default] =
          listSlice pens (j - 1) (j + 1) :=
        listSlice_append_getD pens (j - 1) j (by omega) hj
      rw [← e3, ← e1]
      rfl
    · show ([hd.pens.getLastD default, pens.getD j default]).getLastD default =
        pens.getD (j + 1 - 1) default
      have e : j + 1 - 1 = j := by omega
      rw [e]
      rfl
    · intro s hs
      rcases List.mem_cons.mp hs with h | h
      · exact ⟨a, j - a, by rw [h, hpens]; rfl⟩
      · exact htl s h
  · refine ⟨extend_segment hd (pens.getD j default), tl, rfl,
      ⟨a, by omega, ?_, ?_⟩, htl⟩
    · show hd.pens ++ [pens.getD j default] = listSlice pens a (j + 1)
      rw [hpens]
      exact listSlice_append_getD pens a j (by omega) hj
    · show (hd.pens ++ [pens.getD j default]).getLastD default =
        pens.getD (j + 1 - 1) default
      rw [List.getLastD_concat]
      have e : j + 1 - 1 = j := by omega
      rw [e]

/-- The slice invariant is preserved along the whole index fold of
`divide_segments`. -/
theorem foldl_segStep_slice (pens : List Pen) :
    ∀ (c j : ℕ) (revSegs : List Segment), 1 ≤ j → j + c ≤ pens.length →
    SliceInv pens j revSegs →
    SliceInv pens (j + c) ((List.range' j c).foldl (segStep pens) revSegs) := by
  intro c
  induction c with
  | zero =>
    intro j revSegs _ _ h
    simpa using h
  | succ n ih =>
    intro j revSegs h1 hlen hinv
    rw [List.range'_succ]
    simp only [List.foldl_cons]
    have hstep := segStep_slice pens j revSegs h1 (by omega) hinv
    have hrec := ih (j + 1) (segStep pens revSegs j) (by omega) (by omega) hstep
    have e : j + (n + 1) = (j + 1) + n := by omega
    rw [e]
    exact hrec

/-- C5, counterexample: on the pen list `P5` the first triple fails the
overlap test, so no initial segment opens; the segment later seeded at
index 3 has the pens at indices 3 and 4 re-appended while the loop
continues over indices it already consumed, and the single returned
segment carries `[r3, r4, r5, r4, r5]` — not a contiguous sub-sequence
(no drop/take slice) of `P5`. -/
theorem C5_counterexample :
    divide_segments P5 =
      [extend_segment (extend_segment (init_segment [r3, r4, r5]) r4) r5] ∧
    ¬ ∃ a n, (extend_segment (extend_segment (init_segment [r3, r4, r5]) r4) r5).pens
        = (P5.drop a).take n := by
  refine ⟨by rfl, ?_⟩
  rintro ⟨a, n, h⟩
  have h5 : (extend_segment (extend_segment (init_segment [r3, r4, r5]) r4) r5).pens.length
      = 5 := by decide
  have h6 : P5.length = 6 := by decide
  have hlen : (5 : ℕ) = min n (P5.length - a) := by
    rw [← h5, h, List.length_take, List.length_drop]
  rw [h6] at hlen
  have ha : a = 0 ∨ a = 1 := by omega
  rcases ha with rfl | rfl
  · have hn : n = 5 := by omega
    subst hn
    exact absurd h (by decide)
  · have hn : 5 ≤ n := by omega
    have hdrop : (P5.drop 1).length ≤ n := by
      rw [List.length_drop, h6]
      omega
    rw [List.take_of_length_le hdrop] at h
    exact absurd h (by decide)

/-- C5, amended: when the first three pens pass the overlap test (an
initial segment opens), every segment returned by `divide_segments`
carries a contiguous slice `pens[a:b]` of the validated pen list; when
the initial triple fails the test, a later-seeded segment can repeat
pens it already contains. -/
theorem C5_amended (pens : List Pen) (hov : has_overlap (pens.take 3) = true) :
    ∀ seg ∈ divide_segments pens, ∃ a n, seg.pens = (pens.drop a).take n := by
  intro seg hseg
  simp only [divide_segments] at hseg
  split at hseg
  · simp at hseg
  · rw [List.mem_reverse] at hseg
    rename_i hlen3
    have hinit : SliceInv pens 3 [init_segment (pens.take 3)] := by
      refine ⟨init_segment (pens.take 3), [], rfl, ⟨0, by omega, ?_, ?_⟩, by simp⟩
      · show pens.take 3 = listSlice pens 0 3
        simp [listSlice]
      · show (pens.take 3).getLastD default = pens.getD 2 default
        have h23 : pens.take 2 ++ [pens.getD 2 default] = pens.take 3 := by
          have h := listSlice_append_getD pens 0 2 (by omega) (by omega)
          simpa [listSlice] using h
        rw [← h23, List.getLastD_concat]
    have hfold := foldl_segStep_slice pens (pens.length - 3) 3
      [init_segment (pens.take 3)] (by omega) (by omega) hinit
    obtain ⟨hd, tl, heq, ⟨a, ha, hpens, _⟩, htl⟩ := hfold
    rw [heq] at hseg
    rcases List.mem_cons.mp hseg with h | h
    · exact ⟨a, 3 + (pens.length - 3) - a, by rw [h, hpens]; rfl⟩
    · exact htl seg h

/-- Witness for C5 at the concrete pen list `[p1, p2, p3, p4]`, whose
first triple passes the overlap test. -/
theorem C5_witness :
    has_overlap (List.take 3 [p1, p2, p3, p4]) = true ∧
    break_segment (init_segment [p1, p2, p3]) p4 ∈ divide_segments [p1, p2, p3, p4] ∧
    ∃ a n, (break_segment (init_segment [p1, p2, p3]) p4).pens
        = (List.drop a [p1, p2, p3, p4]).take n := by
  have hres : divide_segments [p1, p2, p3, p4] =
      [init_segment [p1, p2, p3],
       break_segment (init_segment [p1, p2, p3]) p4] := by rfl
  have hmem : break_segment (init_segment [p1, p2, p3]) p4
      ∈ divide_segments [p1, p2, p3, p4] := by
    rw [hres]
    simp
  exact ⟨by decide, hmem,
    C5_amended [p1, p2, p3, p4] (by decide) (break_segment (init_segment [p1, p2, p3]) p4) hmem⟩

/-! ### Claim C9 -/

/-- C9: running the full pipeline (`identify_fractals`,
`filter_fractals`, `divide_pens`, `validate_pens`, `divide_segments`,
`identify_centrals`) a second time over the analyzer state left by a
first run on the same bar series and configuration returns the same
output collections (filtered fractals, divided pens, validated pens,
segments, centrals) as the first run: every stage is a deterministic
function of the bars and thresholds, and each stage that writes its
accumulator resets it before refilling. -/
theorem C9 (df : Bars) (k : ℕ) (thr : ℚ) (min_pens : ℕ) :
    (runPipeline ((runPipeline initState df k thr min_pens).1) df k thr min_pens).2 =
      (runPipeline initState df k thr min_pens).2 := by
  simp only [runPipeline, identifyStep, filterStep, dividePensStep, validateStep,
    divideSegStep, centralsStep, initState]
  by_cases hF : (filter_fractals (identify_tops df k) (identify_bottoms df k)).length < 2
  · simp [hF, apply_ite Prod.fst, apply_ite Prod.snd, apply_ite AState.pens]
  · simp [hF, apply_ite Prod.fst, apply_ite Prod.snd, apply_ite AState.pens]
